import Mathlib

/-!
Verification of the rail YAPF node/segment/key subsystem
(src/pathfinder/yapf/yapf_node_rail.hpp) against its specification.

The segment key, cached segment and rail node are embedded from the source.
The base node-key hash (CYapfNodeKeyTrackDir::CalcHash), the segment cache
lookup and the session fill-in discipline live outside the provided sources;
those are modelled from the spec and marked as such.
-/

/-- A position on the track graph: a tile index together with a track
direction (PathPos).  The source treats it as an opaque value type. -/
structure PathPos where
  tile : Nat
  td : Nat
deriving DecidableEq, Repr

/-- Signal types, from the SignalType enum referenced by the source
(SIGTYPE_NORMAL = block signal, SIGTYPE_PBS = path-based signal, etc.). -/
inductive SignalType where
  | SIGTYPE_NORMAL
  | SIGTYPE_ENTRY
  | SIGTYPE_EXIT
  | SIGTYPE_COMBO
  | SIGTYPE_PBS
  | SIGTYPE_PBS_ONEWAY
deriving DecidableEq, Repr

/-- Empty termination-reason bitset (ESRB_NONE). -/
def ESRB_NONE : Nat := 0

/-- Modelled from the spec: CYapfNodeKeyTrackDir::CalcHash is not among the
provided sources; the spec states the track-direction key hash "is literally
derivable by packing (tile_index << 4) | trackdir".  Stored into a uint32,
hence the reduction modulo 2^32. -/
def nodeKeyTrackDirCalcHash (p : PathPos) : Nat :=
  ((p.tile <<< 4) ||| p.td) % 2 ^ 32

/-- Key for a cached rail segment (CYapfRailSegmentKey): a packed uint32. -/
structure CYapfRailSegmentKey where
  m_value : Nat
deriving DecidableEq, Repr

/-- CYapfRailSegmentKey::Set / the converting constructor: m_value is the
node key hash of the position. -/
def CYapfRailSegmentKey.setFromNodeKey (p : PathPos) : CYapfRailSegmentKey :=
  ⟨nodeKeyTrackDirCalcHash p⟩

/-- Reinterpretation of a 32-bit unsigned value as a signed int32, as done by
the implicit uint32 to int32 conversion in CYapfRailSegmentKey::CalcHash. -/
def toInt32 (v : Nat) : Int :=
  if v < 2 ^ 31 then (v : Int) else (v : Int) - 2 ^ 32

/-- CYapfRailSegmentKey::CalcHash: returns m_value (as int32). -/
def CYapfRailSegmentKey.CalcHash (k : CYapfRailSegmentKey) : Int :=
  toInt32 k.m_value

/-- CYapfRailSegmentKey::operator==: by-value equality of m_value. -/
def CYapfRailSegmentKey.beq (a b : CYapfRailSegmentKey) : Bool :=
  a.m_value == b.m_value

/-- Cached segment cost for rail YAPF (CYapfRailSegment). The intrusive
m_hash_next pointer is modelled as an optional index. -/
structure CYapfRailSegment where
  m_key : CYapfRailSegmentKey
  m_last : PathPos
  m_cost : Int
  m_last_signal : PathPos
  m_end_segment_reason : Nat
  m_hash_next : Option Nat
deriving DecidableEq, Repr

/-- The CYapfRailSegment constructor: stores the key, default-constructs the
positions, sets the cost sentinel -1, empty reason bits, null chain link.
(PathPos default-constructs to invalid tile and trackdir markers.) -/
def CYapfRailSegment.mkNew (key : CYapfRailSegmentKey) : CYapfRailSegment :=
  { m_key := key
    m_last := ⟨0xFFFFFFFF, 0xFF⟩
    m_cost := -1
    m_last_signal := ⟨0xFFFFFFFF, 0xFF⟩
    m_end_segment_reason := ESRB_NONE
    m_hash_next := none }

/-- CYapfRailSegment::GetKey. -/
def CYapfRailSegment.GetKey (s : CYapfRailSegment) : CYapfRailSegmentKey :=
  s.m_key

/-- The three inherited flag bits of the rail node (the flags_s bitfield view
of the m_inherited_flags union; copying the word copies all three bits). -/
structure InheritedFlags where
  m_targed_seen : Bool
  m_choice_seen : Bool
  m_last_signal_was_red : Bool
deriving DecidableEq, Repr

/-- The cleared flags word (m_inherited_flags = 0). -/
def InheritedFlags.zero : InheritedFlags :=
  ⟨false, false, false⟩

/-- Rail-specific search node state (CYapfRailNodeT): position recorded by
the base initializer, segment pointer, and the inherited signal state. -/
structure CYapfRailNodeT where
  m_pos : PathPos
  m_segment : Option CYapfRailSegment
  m_num_signals_passed : Nat
  flags_u : InheritedFlags
  m_last_red_signal_type : SignalType
  m_last_signal_type : SignalType
deriving DecidableEq, Repr

/-- CYapfRailNodeT::Set: base initializer records the position, the segment
pointer is cleared, signal state is defaulted (no parent) or copied verbatim
from the parent, then choice_seen is OR-ed with is_choice. -/
def CYapfRailNodeT.Set (self : CYapfRailNodeT) (parent : Option CYapfRailNodeT)
    (pos : PathPos) (is_choice : Bool) : CYapfRailNodeT :=
  let n1 : CYapfRailNodeT := { self with m_pos := pos, m_segment := none }
  let n2 : CYapfRailNodeT :=
    match parent with
    | none =>
        { n1 with
          m_num_signals_passed := 0
          flags_u := InheritedFlags.zero
          m_last_red_signal_type := SignalType.SIGTYPE_NORMAL
          m_last_signal_type := SignalType.SIGTYPE_PBS }
    | some par =>
        { n1 with
          m_num_signals_passed := par.m_num_signals_passed
          flags_u := par.flags_u
          m_last_red_signal_type := par.m_last_red_signal_type
          m_last_signal_type := par.m_last_signal_type }
  { n2 with
    flags_u := { n2.flags_u with
                 m_choice_seen := n2.flags_u.m_choice_seen || is_choice } }

/-- CYapfRailNodeT::GetLastPos: asserts that the segment is resolved; the
assertion failure on an unresolved segment is modelled as none. -/
def CYapfRailNodeT.GetLastPos (n : CYapfRailNodeT) : Option PathPos :=
  n.m_segment.map (fun s => s.m_last)

/-- Modelled from the spec: the segment cache lookup (absent from the
provided sources, which only contain the chain accessors).  The cache is a
hash table with collision chaining keyed by the segment key; it is modelled
as the list of live segments, searched in chain order. -/
def findSegment : List CYapfRailSegment → CYapfRailSegmentKey →
    Option CYapfRailSegment
  | [], _ => none
  | s :: rest, k => if s.m_key = k then some s else findSegment rest k

/-- Modelled from the spec: find_or_insert — look up by key; if absent,
allocate a new Segment Result with cost sentinel -1, insert, and return it. -/
def find_or_insert (cache : List CYapfRailSegment) (k : CYapfRailSegmentKey) :
    CYapfRailSegment × List CYapfRailSegment :=
  match findSegment cache k with
  | some s => (s, cache)
  | none => (CYapfRailSegment.mkNew k, CYapfRailSegment.mkNew k :: cache)

/-- Fill-in of a computed segment result (end position, cost, last signal,
termination reasons), as performed in place by the rail expansion logic. -/
def fillSegment (s : CYapfRailSegment) (last : PathPos) (cost : Int)
    (sig : PathPos) (reason : Nat) : CYapfRailSegment :=
  { s with
    m_last := last
    m_cost := cost
    m_last_signal := sig
    m_end_segment_reason := reason }

/-- Modelled from the spec: the operations a session performs on its segment
cache — lookups (find_or_insert) and computation fill-in, the latter applied
only while the cost is still the sentinel -1 ("if cost is still the sentinel,
compute the segment ... the result is then immutable"). -/
inductive SessionOp where
  | lookup (k : CYapfRailSegmentKey)
  | fillIn (k : CYapfRailSegmentKey) (last : PathPos) (cost : Int)
      (sig : PathPos) (reason : Nat)

/-- Modelled from the spec: one session step acting on the cache. -/
def stepOp (cache : List CYapfRailSegment) : SessionOp → List CYapfRailSegment
  | SessionOp.lookup k => (find_or_insert cache k).2
  | SessionOp.fillIn k last cost sig reason =>
      cache.map (fun s =>
        if s.m_key = k ∧ s.m_cost = -1 then fillSegment s last cost sig reason
        else s)

/-- A whole session: a sequence of cache operations, run in order. -/
def runOps (cache : List CYapfRailSegment) (ops : List SessionOp) :
    List CYapfRailSegment :=
  ops.foldl stepOp cache

/-- C7: a freshly allocated Segment Result starts with cost sentinel -1,
empty termination-reason bitset and null hash-chain link. -/
theorem segment_fresh_state (k : CYapfRailSegmentKey) :
    (CYapfRailSegment.mkNew k).m_cost = -1 ∧
    (CYapfRailSegment.mkNew k).m_end_segment_reason = ESRB_NONE ∧
    (CYapfRailSegment.mkNew k).m_hash_next = none :=
  ⟨rfl, rfl, rfl⟩

/-- C3: Set with a null parent yields the fixed root defaults: zero signals
passed, all inherited flags cleared before the choice OR (so choice_seen ends
up as false OR is_choice), last red signal type SIGTYPE_NORMAL and last
signal type SIGTYPE_PBS, for every start position. -/
theorem set_root_defaults (self : CYapfRailNodeT) (pos : PathPos)
    (is_choice : Bool) :
    (self.Set none pos is_choice).m_num_signals_passed = 0 ∧
    (self.Set none pos is_choice).flags_u.m_targed_seen = false ∧
    (self.Set none pos is_choice).flags_u.m_last_signal_was_red = false ∧
    (self.Set none pos is_choice).flags_u.m_choice_seen = (false || is_choice) ∧
    (self.Set none pos is_choice).m_last_red_signal_type =
      SignalType.SIGTYPE_NORMAL ∧
    (self.Set none pos is_choice).m_last_signal_type =
      SignalType.SIGTYPE_PBS := by
  simp [CYapfRailNodeT.Set, InheritedFlags.zero]

/-- C4: Set with a non-null parent copies num_signals_passed, the whole flags
word and both signal types verbatim from the parent, then ORs choice_seen
with the caller-supplied is_choice. -/
theorem set_child_inherits (self par : CYapfRailNodeT) (pos : PathPos)
    (is_choice : Bool) :
    (self.Set (some par) pos is_choice).m_num_signals_passed =
      par.m_num_signals_passed ∧
    (self.Set (some par) pos is_choice).flags_u.m_targed_seen =
      par.flags_u.m_targed_seen ∧
    (self.Set (some par) pos is_choice).flags_u.m_last_signal_was_red =
      par.flags_u.m_last_signal_was_red ∧
    (self.Set (some par) pos is_choice).m_last_red_signal_type =
      par.m_last_red_signal_type ∧
    (self.Set (some par) pos is_choice).m_last_signal_type =
      par.m_last_signal_type ∧
    (self.Set (some par) pos is_choice).flags_u.m_choice_seen =
      (par.flags_u.m_choice_seen || is_choice) := by
  simp [CYapfRailNodeT.Set]

/-- C5: a node created from a parent has choice_seen, num_signals_passed and
last_signal_was_red at least the parent values — inherited state only
accumulates. -/
theorem set_monotone (self par : CYapfRailNodeT) (pos : PathPos)
    (is_choice : Bool) :
    par.flags_u.m_choice_seen ≤
      (self.Set (some par) pos is_choice).flags_u.m_choice_seen ∧
    par.m_num_signals_passed ≤
      (self.Set (some par) pos is_choice).m_num_signals_passed ∧
    par.flags_u.m_last_signal_was_red ≤
      (self.Set (some par) pos is_choice).flags_u.m_last_signal_was_red := by
  refine ⟨?_, ?_, ?_⟩ <;> simp [CYapfRailNodeT.Set]
  cases par.flags_u.m_choice_seen <;> simp

/-- C10: Set overwrites every field of the rail node state, so the result is
a function of the parent, the position and is_choice alone, independent of
the prior contents of the node being initialized. -/
theorem set_deterministic (self1 self2 : CYapfRailNodeT)
    (parent : Option CYapfRailNodeT) (pos : PathPos) (is_choice : Bool) :
    self1.Set parent pos is_choice = self2.Set parent pos is_choice := by
  cases parent <;> simp [CYapfRailNodeT.Set]

/-- Bits 4 and above of the packed key recover the tile, for any in-range
track direction. -/
theorem lor_small_shiftRight (a b : Nat) (hb : b < 16) :
    ((a <<< 4) ||| b) >>> 4 = a := by
  apply Nat.eq_of_testBit_eq
  intro i
  rw [Nat.testBit_shiftRight, Nat.testBit_or, Nat.testBit_shiftLeft]
  have h16 : (16 : Nat) ≤ 2 ^ (4 + i) := by
    calc (16 : Nat) = 2 ^ 4 := by norm_num
    _ ≤ 2 ^ (4 + i) := Nat.pow_le_pow_right (by norm_num) (by omega)
  rw [Nat.testBit_lt_two_pow (lt_of_lt_of_le hb h16)]
  have h4 : 4 + i - 4 = i := by omega
  simp [h4]

/-- The low four bits of the packed key recover the track direction. -/
theorem lor_small_land (a b : Nat) (hb : b < 16) :
    ((a <<< 4) ||| b) &&& 0x0F = b := by
  apply Nat.eq_of_testBit_eq
  intro i
  rw [Nat.testBit_and, Nat.testBit_or, Nat.testBit_shiftLeft]
  by_cases h : i < 4
  · have hmask : Nat.testBit 0x0F i = true := by
      interval_cases i <;> decide
    have hdec : decide (i ≥ 4) = false := by simp; omega
    simp [hmask, hdec]
  · have hpow : (16 : Nat) ≤ 2 ^ i := by
      calc (16 : Nat) = 2 ^ 4 := by norm_num
      _ ≤ 2 ^ i := Nat.pow_le_pow_right (by norm_num) (by omega)
    have hmask : Nat.testBit 0x0F i = false :=
      Nat.testBit_lt_two_pow (by omega)
    have hbf : b.testBit i = false :=
      Nat.testBit_lt_two_pow (by omega)
    simp [hmask, hbf]

/-- C1: the segment key built from a position stores exactly the packed
value (tile << 4) | trackdir, CalcHash returns exactly that packed value,
and tile and trackdir are recoverable as m_value >> 4 and m_value & 0x0F. -/
theorem key_hash_packed (p : PathPos) (htd : p.td < 16)
    (htile : p.tile < 2 ^ 27) :
    (CYapfRailSegmentKey.setFromNodeKey p).m_value = ((p.tile <<< 4) ||| p.td) ∧
    (CYapfRailSegmentKey.setFromNodeKey p).CalcHash =
      (((p.tile <<< 4) ||| p.td : Nat) : Int) ∧
    (CYapfRailSegmentKey.setFromNodeKey p).m_value >>> 4 = p.tile ∧
    (CYapfRailSegmentKey.setFromNodeKey p).m_value &&& 0x0F = p.td := by
  have hdiv : ((p.tile <<< 4) ||| p.td) >>> 4 = p.tile :=
    lor_small_shiftRight _ _ htd
  have hdiv16 : ((p.tile <<< 4) ||| p.td) / 16 = p.tile := by
    have h := hdiv
    rw [Nat.shiftRight_eq_div_pow] at h
    norm_num at h
    exact h
  have hlt : ((p.tile <<< 4) ||| p.td) < 2 ^ 31 := by omega
  have hmod : ((p.tile <<< 4) ||| p.td) % 2 ^ 32 = ((p.tile <<< 4) ||| p.td) :=
    Nat.mod_eq_of_lt (by omega)
  have hval : (CYapfRailSegmentKey.setFromNodeKey p).m_value =
      ((p.tile <<< 4) ||| p.td) := by
    simp only [CYapfRailSegmentKey.setFromNodeKey, nodeKeyTrackDirCalcHash]
    exact hmod
  refine ⟨hval, ?_, ?_, ?_⟩
  · show toInt32 (CYapfRailSegmentKey.setFromNodeKey p).m_value = _
    rw [hval]
    simp only [toInt32]
    rw [if_pos hlt]
  · rw [hval]
    exact hdiv
  · rw [hval]
    exact lor_small_land _ _ htd

/-- C1 witness: the theorem at the concrete position (tile 3, trackdir 5). -/
theorem key_hash_packed_witness :
    (5 : Nat) < 16 ∧ (3 : Nat) < 2 ^ 27 ∧
    ((CYapfRailSegmentKey.setFromNodeKey ⟨3, 5⟩).m_value =
      (((3 : Nat) <<< 4) ||| 5) ∧
     (CYapfRailSegmentKey.setFromNodeKey ⟨3, 5⟩).CalcHash =
      ((((3 : Nat) <<< 4) ||| 5 : Nat) : Int) ∧
     (CYapfRailSegmentKey.setFromNodeKey ⟨3, 5⟩).m_value >>> 4 = 3 ∧
     (CYapfRailSegmentKey.setFromNodeKey ⟨3, 5⟩).m_value &&& 0x0F = 5) :=
  ⟨by decide, by decide, key_hash_packed ⟨3, 5⟩ (by decide) (by decide)⟩

/-- Reinterpreting a value below 2^32 as int32 is injective. -/
theorem toInt32_inj (x y : Nat) (hx : x < 2 ^ 32) (hy : y < 2 ^ 32)
    (h : toInt32 x = toInt32 y) : x = y := by
  unfold toInt32 at h
  split at h <;> split at h <;> omega

/-- C9: two segment keys compare equal under operator== exactly when their
CalcHash values are equal — the hash is injective on (32-bit) keys. -/
theorem key_eq_iff_hash_eq (a b : CYapfRailSegmentKey)
    (ha : a.m_value < 2 ^ 32) (hb : b.m_value < 2 ^ 32) :
    a.beq b = true ↔ a.CalcHash = b.CalcHash := by
  constructor
  · intro h
    have hv : a.m_value = b.m_value := by
      simpa [CYapfRailSegmentKey.beq] using h
    simp [CYapfRailSegmentKey.CalcHash, hv]
  · intro h
    have h2 : toInt32 a.m_value = toInt32 b.m_value := h
    have hv := toInt32_inj a.m_value b.m_value ha hb h2
    simp [CYapfRailSegmentKey.beq, hv]

/-- C9 witness: the equivalence at the concrete keys 5 and 7. -/
theorem key_eq_iff_hash_eq_witness :
    (⟨5⟩ : CYapfRailSegmentKey).m_value < 2 ^ 32 ∧
    (⟨7⟩ : CYapfRailSegmentKey).m_value < 2 ^ 32 ∧
    (CYapfRailSegmentKey.beq ⟨5⟩ ⟨7⟩ = true ↔
      (⟨5⟩ : CYapfRailSegmentKey).CalcHash =
        (⟨7⟩ : CYapfRailSegmentKey).CalcHash) :=
  ⟨by decide, by decide, key_eq_iff_hash_eq ⟨5⟩ ⟨7⟩ (by decide) (by decide)⟩

/-- C2: find_or_insert is idempotent — a second find_or_insert with the same
key returns the same Segment Result and leaves the cache unchanged. -/
theorem find_or_insert_idempotent (cache : List CYapfRailSegment)
    (k : CYapfRailSegmentKey) :
    find_or_insert (find_or_insert cache k).2 k =
      ((find_or_insert cache k).1, (find_or_insert cache k).2) := by
  cases h : findSegment cache k with
  | some s =>
      simp [find_or_insert, h]
  | none =>
      have h2 : findSegment (CYapfRailSegment.mkNew k :: cache) k =
          some (CYapfRailSegment.mkNew k) := by
        simp [findSegment, CYapfRailSegment.mkNew]
      simp [find_or_insert, h, h2]

/-- C6: Set always clears the segment pointer; GetLastPos on an unresolved
node hits the assertion (modelled as none); on a node whose segment is
resolved it returns that segment's last position. -/
theorem set_clears_segment (self : CYapfRailNodeT)
    (parent : Option CYapfRailNodeT) (pos : PathPos) (is_choice : Bool)
    (n : CYapfRailNodeT) (s : CYapfRailSegment)
    (hres : n.m_segment = some s) :
    (self.Set parent pos is_choice).m_segment = none ∧
    (self.Set parent pos is_choice).GetLastPos = none ∧
    n.GetLastPos = some s.m_last := by
  have hseg : (self.Set parent pos is_choice).m_segment = none := by
    cases parent <;> simp [CYapfRailNodeT.Set]
  refine ⟨hseg, ?_, ?_⟩
  · simp [CYapfRailNodeT.GetLastPos, hseg]
  · simp [CYapfRailNodeT.GetLastPos, hres]

/-- C6 witness: the theorem at a concrete node holding a resolved segment. -/
theorem set_clears_segment_witness :
    (⟨⟨0, 0⟩, some (CYapfRailSegment.mkNew ⟨9⟩), 0, ⟨false, false, false⟩,
      SignalType.SIGTYPE_NORMAL, SignalType.SIGTYPE_PBS⟩ :
        CYapfRailNodeT).m_segment = some (CYapfRailSegment.mkNew ⟨9⟩) ∧
    (((⟨⟨0, 0⟩, none, 0, ⟨false, false, false⟩, SignalType.SIGTYPE_NORMAL,
        SignalType.SIGTYPE_PBS⟩ : CYapfRailNodeT).Set none ⟨1, 2⟩
        false).m_segment = none ∧
     ((⟨⟨0, 0⟩, none, 0, ⟨false, false, false⟩, SignalType.SIGTYPE_NORMAL,
        SignalType.SIGTYPE_PBS⟩ : CYapfRailNodeT).Set none ⟨1, 2⟩
        false).GetLastPos = none ∧
     (⟨⟨0, 0⟩, some (CYapfRailSegment.mkNew ⟨9⟩), 0, ⟨false, false, false⟩,
       SignalType.SIGTYPE_NORMAL, SignalType.SIGTYPE_PBS⟩ :
         CYapfRailNodeT).GetLastPos =
       some (CYapfRailSegment.mkNew ⟨9⟩).m_last) :=
  ⟨rfl, set_clears_segment _ none ⟨1, 2⟩ false _ _ rfl⟩

/-- One session step never touches a segment whose cost is already computed:
it survives the step unchanged. -/
theorem step_preserves_completed (cache : List CYapfRailSegment)
    (op : SessionOp) (s : CYapfRailSegment) (hmem : s ∈ cache)
    (hdone : s.m_cost ≠ -1) : s ∈ stepOp cache op := by
  cases op with
  | lookup k =>
      unfold stepOp find_or_insert
      cases h : findSegment cache k <;> simp [h, hmem]
  | fillIn k last cost sig reason =>
      unfold stepOp
      refine List.mem_map.2 ⟨s, hmem, ?_⟩
      rw [if_neg]
      intro hcon
      exact hdone hcon.2

/-- C8: once a Segment Result's cost is not the sentinel -1, no sequence of
subsequent session operations changes that cost or any other of its fields:
the very same record is still in the cache after running them. -/
theorem completed_segment_immutable (cache : List CYapfRailSegment)
    (ops : List SessionOp) (s : CYapfRailSegment) (hmem : s ∈ cache)
    (hdone : s.m_cost ≠ -1) : s ∈ runOps cache ops := by
  induction ops generalizing cache with
  | nil => simpa [runOps] using hmem
  | cons op rest ih =>
      have h1 := step_preserves_completed cache op s hmem hdone
      show s ∈ List.foldl stepOp (stepOp cache op) rest
      exact ih (stepOp cache op) h1

/-- C8 witness: a completed segment (cost 5) survives a lookup and a fill-in
for its own key. -/
theorem completed_segment_immutable_witness :
    (⟨⟨3⟩, ⟨1, 1⟩, 5, ⟨1, 1⟩, 0, none⟩ : CYapfRailSegment) ∈
      [(⟨⟨3⟩, ⟨1, 1⟩, 5, ⟨1, 1⟩, 0, none⟩ : CYapfRailSegment)] ∧
    (⟨⟨3⟩, ⟨1, 1⟩, 5, ⟨1, 1⟩, 0, none⟩ : CYapfRailSegment).m_cost ≠ -1 ∧
    (⟨⟨3⟩, ⟨1, 1⟩, 5, ⟨1, 1⟩, 0, none⟩ : CYapfRailSegment) ∈
      runOps [(⟨⟨3⟩, ⟨1, 1⟩, 5, ⟨1, 1⟩, 0, none⟩ : CYapfRailSegment)]
        [SessionOp.lookup ⟨3⟩, SessionOp.fillIn ⟨3⟩ ⟨2, 2⟩ 9 ⟨2, 2⟩ 1] :=
  ⟨List.mem_singleton.2 rfl, by decide,
    completed_segment_immutable _ _ _ (List.mem_singleton.2 rfl) (by decide)⟩
